import Mathlib

/-!
Verification development for the relevancy-scoring engine in
`background_scripts/completion/ranking.js`.

Modelling conventions:
* JavaScript strings are modelled as lists of characters (`Str`).
* JavaScript numbers are modelled as rationals; every arithmetic step of the
  scoring pipeline is exact on rationals.  The only non-finite values the
  pipeline can produce come from division by zero (in this program every
  division by zero has a zero numerator, i.e. it produces NaN); a possibly
  non-finite number is modelled as `Option ℚ` with `none` standing for the
  non-finite result, and the JS operations on such numbers (`jsAdd`, `jsMul`,
  `jsDiv`, `jsLt`) propagate `none` exactly as JS propagates NaN.
* The regexps built by `RegexpCache.get` are always an escaped literal term,
  optionally wrapped in word-boundary anchors, with the `i` flag decided by
  smartcase.  Their matching behaviour is modelled directly by the literal
  matchers `testAnywhere` / `testStartOfWord` / `testWholeWord` below, and the
  cache itself (which is observationally transparent for the keys the scoring
  functions use) is modelled separately as an explicit store for the
  identity/collision claims.
-/

namespace Ranking

/-- JavaScript strings are modelled as lists of characters. -/
abbrev Str := List Char

/-- Models the JavaScript regexp word-character class `\w`, which is exactly
`[A-Za-z0-9_]`; `Char.isAlpha`/`Char.isDigit` are the corresponding ASCII
predicates. -/
def isWordChar (c : Char) : Bool := c.isAlpha || c.isDigit || c == '_'

/-- Character comparison under an optional ignore-case flag (the regexp `i`
flag); case folding is ASCII `Char.toLower`, which agrees with JavaScript on
the ASCII range. -/
def charEqI (ic : Bool) (a b : Char) : Bool :=
  if ic then a.toLower == b.toLower else a == b

/-- Does the literal `t` occur at the front of `s` (up to case when `ic`)? -/
def litHere (ic : Bool) : Str → Str → Bool
  | [], _ => true
  | _ :: _, [] => false
  | a :: ta, b :: tb => charEqI ic a b && litHere ic ta tb

/-- Is the character at index `i` of `s` a word character (`false` when out of
range)? -/
def charAtIsWord (s : Str) (i : Nat) : Bool :=
  match s.drop i with
  | c :: _ => isWordChar c
  | [] => false

/-- Models the regexp word-boundary assertion `\b` at position `i` of `s`: the
two sides of the position disagree on word-character-ness (positions outside
the string count as non-word). -/
def boundaryAt (s : Str) (i : Nat) : Bool :=
  (if i = 0 then false else charAtIsWord s (i - 1)) != charAtIsWord s i

/-- Models `regexp.test(s)` for the plain escaped-literal pattern of `t`. -/
def testAnywhere (ic : Bool) (t s : Str) : Bool :=
  (List.range (s.length + 1)).any fun i => litHere ic t (s.drop i)

/-- Models `regexp.test(s)` for the pattern with a word-boundary anchor before
the escaped literal (`RegexpCache.get(term, "\\b")`). -/
def testStartOfWord (ic : Bool) (t s : Str) : Bool :=
  (List.range (s.length + 1)).any fun i => boundaryAt s i && litHere ic t (s.drop i)

/-- Models `regexp.test(s)` for the whole-word pattern with word-boundary
anchors on both sides (`RegexpCache.get(term, "\\b", "\\b")`). -/
def testWholeWord (ic : Bool) (t s : Str) : Bool :=
  (List.range (s.length + 1)).any fun i =>
    boundaryAt s i && litHere ic t (s.drop i) && boundaryAt s (i + t.length)

/-- Modelled from the spec: `Utils.hasUpperCase`, the case-detection
collaborator routine, which is not under `src/`.  Per the spec it reports
whether the string contains an uppercase letter. -/
def hasUpperCase (s : Str) : Bool := s.any Char.isUpper

/-- The regexp metacharacters neutralised by the escaping collaborator
(`Char.ofNat 123`/`Char.ofNat 125` are the curly braces). -/
def regexSpecialChars : List Char :=
  ['.', '*', '+', '?', '^', '$', Char.ofNat 123, Char.ofNat 125,
   '(', ')', '|', '[', ']', '/', '\\', '=', '!', ':']

/-- Modelled from the spec: `Utils.escapeRegexSpecialCharacters`, the
text-escaping collaborator routine, which is not under `src/`.  Per the spec it
neutralises every matching-metacharacter of the input by preceding it with a
backslash, so arbitrary input is treated literally. -/
def escapeRegexSpecialCharacters (s : Str) : Str :=
  s.foldr (fun c acc => (if c ∈ regexSpecialChars then ['\\', c] else [c]) ++ acc) []

/-- Models `String.prototype.split` on a non-empty escaped-literal pattern
`a :: ta`: the leftmost-first, non-overlapping scan.  `acc` holds the reversed
characters of the chunk currently being accumulated.  On a match the scan
emits the chunk and advances past the occurrence (one character consumed by
the pattern head `a`, `ta.length` more by dropping).  The `fuel` argument only
makes the recursion structural: every step consumes at least one character, so
any `fuel ≥ s.length` (as supplied by `jsSplit`) gives the scan's result and
the zero-fuel/non-empty-string case is unreachable. -/
def splitGo (ic : Bool) (a : Char) (ta : Str) : Nat → Str → Str → List Str
  | _, acc, [] => [acc.reverse]
  | 0, acc, _ :: _ => [acc.reverse]
  | fuel + 1, acc, c :: rest =>
    if litHere ic (a :: ta) (c :: rest) then
      acc.reverse :: splitGo ic a ta fuel [] (rest.drop ta.length)
    else
      splitGo ic a ta fuel (c :: acc) rest

/-- Models `string.split(regexp)` for the escaped-literal pattern of `t` (the
only pattern shape `scoreTerm` splits on), including the JavaScript behaviour
on the empty pattern: splitting a string on the empty pattern yields its list
of single-character strings (and the empty array for the empty string). -/
def jsSplit (ic : Bool) (t s : Str) : List Str :=
  match t with
  | [] => s.map fun c => [c]
  | a :: ta => splitGo ic a ta s.length [] s

/-- Weights used for scoring matches.  The four weights are integer-valued
JavaScript numbers, modelled as `ℤ` so that term scoring is integer-exact;
the calibrator is the rational `2/3`. -/
structure MatchWeights where
  matchAnywhere : ℤ
  matchStartOfWord : ℤ
  matchWholeWord : ℤ
  maximumScore : ℤ
  recencyCalibrator : ℚ

/-- The `matchWeights` constant of the source. -/
def matchWeights : MatchWeights :=
  { matchAnywhere := 1
    matchStartOfWord := 1
    matchWholeWord := 1
    maximumScore := 3
    recencyCalibrator := 2 / 3 }

/-- Models `scoreTerm(term, string)`.  The regexps obtained through
`RegexpCache.get` inside the source are determined by their arguments (escaped
literal, optional word-boundary anchors, smartcase flag from the raw term), so
their matching behaviour is inlined via `jsSplit` and the `test*` matchers.
The source computes `count` by folding `(p, c) => p - c.length` over the split
chunks starting from `string.length`, then caps it at `string.length`.  Both
components are integer-valued JavaScript numbers, modelled as `ℤ`. -/
def scoreTerm (term string : Str) : ℤ × ℤ :=
  let ic := !hasUpperCase term
  let nonMatching := jsSplit ic term string
  let (score, count) :=
    if 1 < nonMatching.length then
      let score := matchWeights.matchAnywhere
      let count := nonMatching.foldl (fun p c => p - (c.length : ℤ)) ((string.length : ℤ))
      let score :=
        if testStartOfWord ic term string then
          score + matchWeights.matchStartOfWord +
            (if testWholeWord ic term string then matchWeights.matchWholeWord else 0)
        else score
      (score, count)
    else ((0 : ℤ), (0 : ℤ))
  (score, if count < (string.length : ℤ) then count else (string.length : ℤ))

/-- Models `matches(queryTerms, ...things)` (named `matchesTerms` here since `matches` is reserved); the variadic parameter is a list.
The source loop sets `matchedTerm` as soon as some thing matches the term's
anywhere-pattern and fails as soon as one term matched nothing. -/
def matchesTerms (queryTerms : List Str) (things : List Str) : Bool :=
  queryTerms.all fun term =>
    things.any fun thing => testAnywhere (!hasUpperCase term) term thing

example : matchesTerms ["ari".toList] ["maRio".toList] = true := by decide
example : matchesTerms ["Mar".toList] ["Mario".toList] = true := by decide
example : matchesTerms ["Mar".toList] ["mario".toList] = false := by decide
example : matchesTerms ["cat".toList, "dog".toList] ["catapult".toList, "hound dog".toList] = true := by
  decide
example : matchesTerms ["cat".toList, "dog".toList, "wolf".toList]
    ["catapult".toList, "hound dog".toList] = false := by decide
example : jsSplit true "ab".toList "abcab".toList = [[], ['c'], []] := by decide
example : scoreTerm "com".toList "abcX com".toList = (3, 3) := by decide
example : scoreTerm "com".toList "comXabcd".toList = (2, 3) := by decide
example : scoreTerm "com".toList "acomXbcd".toList = (1, 3) := by decide
example : scoreTerm "cat".toList "hound dog".toList = (0, 0) := by decide

/-! ### JavaScript numbers that may be non-finite

Every division in `wordRelevancy`/`normalizeDifference` whose divisor is zero
also has a zero dividend, so the only non-finite value arising is NaN, and any
value derived from it by `+`, `*`, `/` is again NaN.  `none` models such a
non-finite value; `<` on NaN is `false`, as in JavaScript. -/

/-- JavaScript addition on possibly-NaN numbers. -/
def jsAdd : Option ℚ → Option ℚ → Option ℚ
  | some a, some b => some (a + b)
  | _, _ => none

/-- JavaScript multiplication on possibly-NaN numbers (`0 * NaN` is NaN). -/
def jsMul : Option ℚ → Option ℚ → Option ℚ
  | some a, some b => some (a * b)
  | _, _ => none

/-- JavaScript division on possibly-NaN numbers; a zero divisor yields a
non-finite result (in this program always `0 / 0`, i.e. NaN). -/
def jsDiv : Option ℚ → Option ℚ → Option ℚ
  | some a, some b => if b = 0 then none else some (a / b)
  | _, _ => none

/-- JavaScript `<` on possibly-NaN numbers: any comparison with NaN is false. -/
def jsLt : Option ℚ → Option ℚ → Bool
  | some a, some b => a < b
  | _, _ => false

/-- Models `normalizeDifference(a, b)`:
`(max(a, b) - Math.abs(a - b)) / max(a, b)`. -/
def normalizeDifference (a b : ℚ) : Option ℚ :=
  let m := max a b
  jsDiv (some (m - |a - b|)) (some m)

/-- Truthiness of the optional `title` argument: JavaScript `if (title)` is
false both for a missing title and for the empty string. -/
def strTruthy : Option Str → Bool
  | none => false
  | some s => !s.isEmpty

/-- The accumulation and normalization that `wordRelevancy` performs for one
field: the per-term loop sums `scoreTerm` scores and counts (exact integer
arithmetic), the sum is divided by `maximumScore * queryTerms.length` and
multiplied by the `normalizeDifference` length-normalization factor. -/
def normalizedFieldScore (queryTerms : List Str) (field : Str) : Option ℚ :=
  let score : ℤ := queryTerms.foldl (fun a term => a + (scoreTerm term field).1) 0
  let count : ℤ := queryTerms.foldl (fun a term => a + (scoreTerm term field).2) 0
  let maximumPossibleScore : ℤ := matchWeights.maximumScore * queryTerms.length
  jsMul (jsDiv (some (score : ℚ)) (some (maximumPossibleScore : ℚ)))
    (normalizeDifference (count : ℚ) (field.length : ℚ))

/-- The pair `(urlScore, titleScore)` as they stand right before
`wordRelevancy` returns: after per-field normalization, after the
missing-title collapse `titleScore = urlScore`, and after the asymmetric
floor `if (urlScore < titleScore) urlScore = titleScore`. -/
def wordRelevancyParts (queryTerms : List Str) (url : Str) (title : Option Str) :
    Option ℚ × Option ℚ :=
  let urlScore := normalizedFieldScore queryTerms url
  let titleScore :=
    if strTruthy title then normalizedFieldScore queryTerms (title.getD [])
    else urlScore
  let urlScore := if jsLt urlScore titleScore then titleScore else urlScore
  (urlScore, titleScore)

/-- Models `wordRelevancy(queryTerms, url, title)`: the average of the two
post-adjustment scores. -/
def wordRelevancy (queryTerms : List Str) (url : Str) (title : Option Str) : Option ℚ :=
  let p := wordRelevancyParts queryTerms url title
  jsDiv (jsAdd p.1 p.2) (some 2)

/-- The `oneMonthAgo` constant of the source: thirty days in milliseconds. -/
def oneMonthAgo : ℚ := 1000 * 60 * 60 * 24 * 30

/-- Models `recencyScore(lastAccessedTime)`.  The source reads the clock via
`Date.now()`; the model takes the current time as the explicit first
argument. -/
def recencyScore (now lastAccessedTime : ℚ) : ℚ :=
  let recency := now - lastAccessedTime
  let recencyDifference := max 0 (oneMonthAgo - recency) / oneMonthAgo
  let score := recencyDifference * recencyDifference * recencyDifference
  score * matchWeights.recencyCalibrator

/-! ### The regexp cache

`RegexpCache` memoizes compiled regexps keyed by the final pattern string.  A
compiled JavaScript `RegExp` is modelled by its pattern string and its `i`
flag; the cache is the insertion-ordered list of entries, and the position of
an entry in that list models the object identity of the compiled regexp (two
calls return "the identical instance" exactly when they return the same
position). -/

/-- A compiled JavaScript regexp: the pattern string plus the ignore-case
flag. -/
structure JsRegExp where
  source : Str
  ignoreCase : Bool
deriving DecidableEq

/-- The cache store: insertion-ordered `(key, regexp)` entries. -/
abbrev Cache := List (Str × JsRegExp)

/-- The final pattern string `regexpString` built by `RegexpCache.get`: the
escaped term, wrapped in the raw (unescaped) `pre`/`suf` fragments when these
are non-empty.  (The source's parameter names are `prefix`/`suffix`; those
words are unavailable here.) -/
def regexpKey (string pre suf : Str) : Str :=
  let r := escapeRegexSpecialCharacters string
  let r := if pre.isEmpty then r else pre ++ r
  if suf.isEmpty then r else r ++ suf

/-- The regexp that `RegexpCache.get` compiles on a cache miss:
`new RegExp(regexpString, Utils.hasUpperCase(string) ? "" : "i")` — the
smartcase decision reads the raw `string`, not `regexpString`. -/
def compileRegexp (string pre suf : Str) : JsRegExp :=
  { source := regexpKey string pre suf
    ignoreCase := !hasUpperCase string }

/-- Index of the first cache entry carrying `key`, if any. -/
def lookupEntry : Cache → Str → Option (ℕ × JsRegExp)
  | [], _ => none
  | (k, re) :: rest, key =>
    if k = key then some (0, re)
    else (lookupEntry rest key).map fun p => (p.1 + 1, p.2)

/-- Models `RegexpCache.get(string, prefix, suffix)` on an explicit cache
state: return the cached regexp for the final pattern string if present,
otherwise compile, append and return it.  The result is the index of the
returned entry (its object identity), the returned regexp value, and the new
cache state. -/
def RegexpCache.get (cache : Cache) (string pre suf : Str) : ℕ × JsRegExp × Cache :=
  let key := regexpKey string pre suf
  match lookupEntry cache key with
  | some (i, re) => (i, re, cache)
  | none => (cache.length, compileRegexp string pre suf,
      cache ++ [(key, compileRegexp string pre suf)])

example : (RegexpCache.get [] "this".toList [] []).1 =
    (RegexpCache.get (RegexpCache.get [] "this".toList [] []).2.2 "this".toList [] []).1 := by
  decide
example : (RegexpCache.get [] "this".toList ['('] [')']).1 ≠
    (RegexpCache.get (RegexpCache.get [] "this".toList ['('] [')']).2.2 "this".toList [] []).1 := by
  decide
example : wordRelevancy ["a".toList] "a".toList none = some 1 := by
  have hs : scoreTerm "a".toList "a".toList = (3, 1) := by decide
  have h1 : normalizedFieldScore ["a".toList] "a".toList = some 1 := by
    simp only [normalizedFieldScore, List.foldl_cons, List.foldl_nil, hs]
    norm_num [normalizeDifference, jsDiv, jsMul, matchWeights]
  simp only [wordRelevancy, wordRelevancyParts, strTruthy, h1]
  norm_num [jsAdd, jsDiv, jsLt]

/-! ### Facts about the split scan -/

/-- Does the literal `t` occur at the front of some suffix of `s`?  This is the
recursion-friendly form of "the pattern has a match in `s`". -/
def hasOcc (ic : Bool) (t : Str) : Str → Bool
  | [] => litHere ic t []
  | c :: rest => litHere ic t (c :: rest) || hasOcc ic t rest

theorem litHere_nil_pat (ic : Bool) (s : Str) : litHere ic [] s = true := by
  cases s <;> rfl

theorem testAnywhere_iff_exists (ic : Bool) (t s : Str) :
    testAnywhere ic t s = true ↔ ∃ i, i ≤ s.length ∧ litHere ic t (s.drop i) = true := by
  simp [testAnywhere, List.any_eq_true, Nat.lt_succ_iff]

theorem hasOcc_iff_exists (ic : Bool) (t : Str) :
    ∀ s : Str, hasOcc ic t s = true ↔ ∃ i, i ≤ s.length ∧ litHere ic t (s.drop i) = true := by
  intro s
  induction s with
  | nil =>
    simp [hasOcc]
  | cons c rest ih =>
    simp only [hasOcc, Bool.or_eq_true, ih]
    constructor
    · rintro (h | ⟨i, hi, h⟩)
      · exact ⟨0, by simp, h⟩
      · exact ⟨i + 1, by simp; omega, by simpa using h⟩
    · rintro ⟨i, hi, h⟩
      cases i with
      | zero => exact Or.inl (by simpa using h)
      | succ j => exact Or.inr ⟨j, by simp at hi; omega, by simpa using h⟩

theorem testAnywhere_eq_hasOcc (ic : Bool) (t s : Str) :
    testAnywhere ic t s = hasOcc ic t s := by
  cases hb : hasOcc ic t s with
  | true =>
    exact (testAnywhere_iff_exists ic t s).mpr ((hasOcc_iff_exists ic t s).mp hb)
  | false =>
    cases hx : testAnywhere ic t s with
    | false => rfl
    | true =>
      have := (hasOcc_iff_exists ic t s).mpr ((testAnywhere_iff_exists ic t s).mp hx)
      rw [hb] at this
      exact absurd this (by simp)

theorem splitGo_length_pos (ic : Bool) (a : Char) (ta : Str) :
    ∀ (fuel : ℕ) (acc s : Str), 0 < (splitGo ic a ta fuel acc s).length := by
  intro fuel
  induction fuel with
  | zero => intro acc s; cases s <;> simp [splitGo]
  | succ n ih =>
    intro acc s
    cases s with
    | nil => simp [splitGo]
    | cons c rest =>
      by_cases h : litHere ic (a :: ta) (c :: rest) = true <;>
        simp [splitGo, h, ih]

theorem splitGo_sum_le (ic : Bool) (a : Char) (ta : Str) :
    ∀ (fuel : ℕ) (acc s : Str),
      ((splitGo ic a ta fuel acc s).map List.length).sum ≤ acc.length + s.length := by
  intro fuel
  induction fuel with
  | zero =>
    intro acc s
    cases s <;> simp [splitGo]
  | succ n ih =>
    intro acc s
    cases s with
    | nil => simp [splitGo]
    | cons c rest =>
      by_cases h : litHere ic (a :: ta) (c :: rest) = true
      · have hrec := ih [] (rest.drop ta.length)
        have hd : (rest.drop ta.length).length ≤ rest.length := by
          simp
        simp only [splitGo, h, if_true, List.map_cons, List.sum_cons,
          List.length_reverse, List.length_cons, List.length_nil] at *
        omega
      · have hrec := ih (c :: acc) rest
        simp only [splitGo, h, if_false, List.length_cons, Bool.false_eq_true] at *
        omega

theorem splitGo_one_lt_length_iff (ic : Bool) (a : Char) (ta : Str) :
    ∀ (fuel : ℕ) (acc s : Str), s.length ≤ fuel →
      (1 < (splitGo ic a ta fuel acc s).length ↔ hasOcc ic (a :: ta) s = true) := by
  intro fuel
  induction fuel with
  | zero =>
    intro acc s hs
    have : s = [] := by
      cases s with
      | nil => rfl
      | cons c rest => simp at hs
    subst this
    simp [splitGo, hasOcc, litHere]
  | succ n ih =>
    intro acc s hs
    cases s with
    | nil => simp [splitGo, hasOcc, litHere]
    | cons c rest =>
      by_cases h : litHere ic (a :: ta) (c :: rest) = true
      · simp only [splitGo, if_pos h, hasOcc, Bool.or_eq_true, List.length_cons]
        have hp := splitGo_length_pos ic a ta n [] (rest.drop ta.length)
        exact ⟨fun _ => Or.inl h, fun _ => by omega⟩
      · have hlen : rest.length ≤ n := by simp at hs; omega
        simp only [splitGo, h, if_false, hasOcc, Bool.or_eq_true, Bool.false_eq_true,
          false_or, ih (c :: acc) rest hlen]

theorem foldl_sub_length (parts : List Str) :
    ∀ init : ℤ, parts.foldl (fun p c => p - (c.length : ℤ)) init =
      init - ((parts.map List.length).sum : ℤ) := by
  induction parts with
  | nil => intro init; simp
  | cons p ps ih =>
    intro init
    simp only [List.foldl_cons, ih, List.map_cons, List.sum_cons]
    push_cast
    ring

theorem jsSplit_sum_le (ic : Bool) (t s : Str) :
    ((jsSplit ic t s).map List.length).sum ≤ s.length := by
  cases t with
  | nil =>
    simp only [jsSplit, List.map_map]
    induction s with
    | nil => simp
    | cons c rest ih =>
      simp [Function.comp] at *
      omega
  | cons a ta =>
    simpa using splitGo_sum_le ic a ta s.length [] s

theorem jsSplit_one_lt_length_iff (ic : Bool) (a : Char) (ta : Str) (s : Str) :
    1 < (jsSplit ic (a :: ta) s).length ↔
      testAnywhere ic (a :: ta) s = true := by
  rw [testAnywhere_eq_hasOcc]
  exact splitGo_one_lt_length_iff ic a ta s.length [] s le_rfl

/-! ### Relations between the three match tests -/

theorem testAnywhere_nil_pat (ic : Bool) (s : Str) :
    testAnywhere ic [] s = true := by
  rw [testAnywhere_iff_exists]
  exact ⟨s.length, le_rfl, by simp [litHere_nil_pat]⟩

theorem testWholeWord_imp_startOfWord (ic : Bool) (t s : Str) :
    testWholeWord ic t s = true → testStartOfWord ic t s = true := by
  simp only [testWholeWord, testStartOfWord, List.any_eq_true, List.mem_range,
    Bool.and_eq_true]
  rintro ⟨i, hi, ⟨h1, h2⟩, h3⟩
  exact ⟨i, hi, h1, h2⟩

theorem testStartOfWord_imp_anywhere (ic : Bool) (t s : Str) :
    testStartOfWord ic t s = true → testAnywhere ic t s = true := by
  simp only [testStartOfWord, testAnywhere, List.any_eq_true, List.mem_range,
    Bool.and_eq_true]
  rintro ⟨i, hi, h1, h2⟩
  exact ⟨i, hi, h2⟩

theorem testWholeWord_nil_pat (ic : Bool) (s : Str) :
    testWholeWord ic [] s = testStartOfWord ic [] s := by
  simp [testWholeWord, testStartOfWord, litHere_nil_pat, Bool.and_self]

/-! ### Characterization of `scoreTerm` -/

theorem scoreTerm_of_no_match (term s : Str)
    (h : testAnywhere (!hasUpperCase term) term s = false) :
    scoreTerm term s = (0, 0) := by
  cases term with
  | nil =>
    rw [testAnywhere_nil_pat] at h
    cases h
  | cons a ta =>
    have hs : ¬ 1 < (jsSplit (!hasUpperCase (a :: ta)) (a :: ta) s).length := by
      rw [jsSplit_one_lt_length_iff, h]
      simp
    simp only [scoreTerm, if_neg hs]
    split_ifs with hc
    · rfl
    · have hz : (s.length : ℤ) = 0 := by omega
      rw [hz]

theorem scoreTerm_score_of_match (a : Char) (ta s : Str)
    (h : 1 < (jsSplit (!hasUpperCase (a :: ta)) (a :: ta) s).length) :
    (scoreTerm (a :: ta) s).1 =
      matchWeights.matchAnywhere +
        (if testStartOfWord (!hasUpperCase (a :: ta)) (a :: ta) s then
          matchWeights.matchStartOfWord else 0) +
        (if testWholeWord (!hasUpperCase (a :: ta)) (a :: ta) s then
          matchWeights.matchWholeWord else 0) := by
  simp only [scoreTerm, if_pos h]
  by_cases hst : testStartOfWord (!hasUpperCase (a :: ta)) (a :: ta) s = true
  · by_cases hww : testWholeWord (!hasUpperCase (a :: ta)) (a :: ta) s = true
    · simp [if_pos hst, if_pos hww]
    · simp [if_pos hst, if_neg hww]
  · have hww : ¬ testWholeWord (!hasUpperCase (a :: ta)) (a :: ta) s = true :=
      fun hw => hst (testWholeWord_imp_startOfWord _ _ _ hw)
    simp [if_neg hst, if_neg hww]

theorem scoreTerm_count_of_match (a : Char) (ta s : Str)
    (h : 1 < (jsSplit (!hasUpperCase (a :: ta)) (a :: ta) s).length) :
    (scoreTerm (a :: ta) s).2 =
      min ((s.length : ℤ) -
          ((jsSplit (!hasUpperCase (a :: ta)) (a :: ta) s).map List.length).sum)
        (s.length : ℤ) := by
  simp only [scoreTerm, if_pos h, foldl_sub_length]
  have hsum : (0 : ℤ) ≤ ((jsSplit (!hasUpperCase (a :: ta)) (a :: ta) s).map List.length).sum := by
    positivity
  split_ifs with hc
  · omega
  · omega

theorem scoreTerm_score_bounds (term s : Str) :
    0 ≤ (scoreTerm term s).1 ∧ (scoreTerm term s).1 ≤ matchWeights.maximumScore := by
  by_cases h : 1 < (jsSplit (!hasUpperCase term) term s).length
  · simp only [scoreTerm, if_pos h]
    split_ifs <;> norm_num [matchWeights]
  · simp only [scoreTerm, if_neg h]
    norm_num [matchWeights]

theorem scoreTerm_count_bounds (term s : Str) :
    0 ≤ (scoreTerm term s).2 ∧ (scoreTerm term s).2 ≤ (s.length : ℤ) := by
  have hle := jsSplit_sum_le (!hasUpperCase term) term s
  by_cases h : 1 < (jsSplit (!hasUpperCase term) term s).length
  · simp only [scoreTerm, if_pos h, foldl_sub_length]
    have hcast : (((jsSplit (!hasUpperCase term) term s).map List.length).sum : ℤ) ≤
        (s.length : ℤ) := by exact_mod_cast hle
    have hsum : (0 : ℤ) ≤ ((jsSplit (!hasUpperCase term) term s).map List.length).sum := by
      positivity
    split_ifs with hc <;> omega
  · simp only [scoreTerm, if_neg h]
    split_ifs with hc <;> omega

/-- Claim C1: for every non-empty query term and every field, `scoreTerm`
returns a score in `[0, maximumScore]` and an integer count in
`[0, field.length]`; with no occurrence of the term it returns `(0, 0)`; with
an occurrence the score is `matchAnywhere`, plus `matchStartOfWord` when some
occurrence begins at a word boundary, plus `matchWholeWord` when some
occurrence is bounded by word boundaries on both sides, and the count is the
field length minus the total length of the split chunks, capped at the field
length. -/
theorem scoreTerm_contract (term field : Str) (hne : term ≠ []) :
    (0 ≤ (scoreTerm term field).1 ∧
      (scoreTerm term field).1 ≤ matchWeights.maximumScore) ∧
    (∃ n : ℕ, (scoreTerm term field).2 = (n : ℤ) ∧ n ≤ field.length) ∧
    (testAnywhere (!hasUpperCase term) term field = false →
      scoreTerm term field = (0, 0)) ∧
    (testAnywhere (!hasUpperCase term) term field = true →
      (scoreTerm term field).1 =
        matchWeights.matchAnywhere +
          (if testStartOfWord (!hasUpperCase term) term field then
            matchWeights.matchStartOfWord else 0) +
          (if testWholeWord (!hasUpperCase term) term field then
            matchWeights.matchWholeWord else 0) ∧
      (scoreTerm term field).2 =
        min ((field.length : ℤ) -
            ((jsSplit (!hasUpperCase term) term field).map List.length).sum)
          (field.length : ℤ)) := by
  obtain ⟨a, ta, rfl⟩ := List.exists_cons_of_ne_nil hne
  refine ⟨scoreTerm_score_bounds _ _, ?_, scoreTerm_of_no_match _ _, ?_⟩
  · obtain ⟨h0, hl⟩ := scoreTerm_count_bounds (a :: ta) field
    refine ⟨(scoreTerm (a :: ta) field).2.toNat, ?_, ?_⟩
    · omega
    · omega
  · intro hany
    have h := (jsSplit_one_lt_length_iff (!hasUpperCase (a :: ta)) a ta field).mpr hany
    exact ⟨scoreTerm_score_of_match a ta field h, scoreTerm_count_of_match a ta field h⟩

/-- Witness for C1 at the concrete input `term = "com"`, `field = "abcX com"`
(a whole-word occurrence: score `3`, count `3` on a field of length `8`). -/
theorem scoreTerm_contract_witness :
    "com".toList ≠ [] ∧
    (0 ≤ (scoreTerm "com".toList "abcX com".toList).1 ∧
      (scoreTerm "com".toList "abcX com".toList).1 ≤ matchWeights.maximumScore) ∧
    (∃ n : ℕ, (scoreTerm "com".toList "abcX com".toList).2 = (n : ℤ) ∧
      n ≤ "abcX com".toList.length) :=
  ⟨by decide,
    (scoreTerm_contract "com".toList "abcX com".toList (by decide)).1,
    (scoreTerm_contract "com".toList "abcX com".toList (by decide)).2.1⟩

/-- Claim C9: holding the term and the field length fixed, a field with a
whole-word occurrence scores strictly higher than one whose occurrences reach
a start of word but never a whole word, and the latter scores strictly higher
than one whose occurrences are all mid-word. -/
theorem scoreTerm_match_quality_ordering (term f1 f2 f3 : Str)
    (hlen12 : f1.length = f2.length) (hlen23 : f2.length = f3.length)
    (hw1 : testWholeWord (!hasUpperCase term) term f1 = true)
    (hs2 : testStartOfWord (!hasUpperCase term) term f2 = true)
    (hw2 : testWholeWord (!hasUpperCase term) term f2 = false)
    (ha3 : testAnywhere (!hasUpperCase term) term f3 = true)
    (hs3 : testStartOfWord (!hasUpperCase term) term f3 = false) :
    (scoreTerm term f2).1 < (scoreTerm term f1).1 ∧
      (scoreTerm term f3).1 < (scoreTerm term f2).1 := by
  cases term with
  | nil =>
    rw [testWholeWord_nil_pat, hs2] at hw2
    cases hw2
  | cons a ta =>
    set ic := !hasUpperCase (a :: ta) with hic
    have hs1 : testStartOfWord ic (a :: ta) f1 = true :=
      testWholeWord_imp_startOfWord _ _ _ hw1
    have ha1 : testAnywhere ic (a :: ta) f1 = true :=
      testStartOfWord_imp_anywhere _ _ _ hs1
    have ha2 : testAnywhere ic (a :: ta) f2 = true :=
      testStartOfWord_imp_anywhere _ _ _ hs2
    have hw3 : testWholeWord ic (a :: ta) f3 = false := by
      cases hx : testWholeWord ic (a :: ta) f3 with
      | false => rfl
      | true => rw [testWholeWord_imp_startOfWord _ _ _ hx] at hs3; cases hs3
    have e1 := scoreTerm_score_of_match a ta f1
      ((jsSplit_one_lt_length_iff ic a ta f1).mpr ha1)
    have e2 := scoreTerm_score_of_match a ta f2
      ((jsSplit_one_lt_length_iff ic a ta f2).mpr ha2)
    have e3 := scoreTerm_score_of_match a ta f3
      ((jsSplit_one_lt_length_iff ic a ta f3).mpr ha3)
    rw [e1, e2, e3, if_pos hw1, if_pos hs1, if_pos hs2, if_neg (by rw [hw2]; simp),
      if_neg (by rw [hs3]; simp), if_neg (by rw [hw3]; simp)]
    norm_num [matchWeights]

/-- Witness for C9: term `"com"` against the equal-length fields `"abcX com"`
(whole word), `"comXabcd"` (start of word only) and `"acomXbcd"` (mid-word
only). -/
theorem scoreTerm_match_quality_ordering_witness :
    ("abcX com".toList.length = "comXabcd".toList.length ∧
      "comXabcd".toList.length = "acomXbcd".toList.length ∧
      testWholeWord (!hasUpperCase "com".toList) "com".toList "abcX com".toList = true ∧
      testStartOfWord (!hasUpperCase "com".toList) "com".toList "comXabcd".toList = true ∧
      testWholeWord (!hasUpperCase "com".toList) "com".toList "comXabcd".toList = false ∧
      testAnywhere (!hasUpperCase "com".toList) "com".toList "acomXbcd".toList = true ∧
      testStartOfWord (!hasUpperCase "com".toList) "com".toList "acomXbcd".toList = false) ∧
    ((scoreTerm "com".toList "comXabcd".toList).1 <
        (scoreTerm "com".toList "abcX com".toList).1 ∧
      (scoreTerm "com".toList "acomXbcd".toList).1 <
        (scoreTerm "com".toList "comXabcd".toList).1) :=
  ⟨by decide,
    scoreTerm_match_quality_ordering "com".toList "abcX com".toList "comXabcd".toList
      "acomXbcd".toList (by decide) (by decide) (by decide) (by decide) (by decide)
      (by decide) (by decide)⟩

/-- Claim C5: `matches` is true iff every term's anywhere-pattern matches at
least one field (OR across fields, AND across terms); with an empty term list
it is vacuously true. -/
theorem matchesTerms_contract (queryTerms things : List Str) :
    (matchesTerms queryTerms things = true ↔
      ∀ term ∈ queryTerms, ∃ thing ∈ things,
        testAnywhere (!hasUpperCase term) term thing = true) ∧
    matchesTerms [] things = true := by
  constructor
  · simp [matchesTerms, List.all_eq_true, List.any_eq_true]
  · rfl

/-! ### Facts about the regexp cache -/

theorem lookupEntry_spec (key : Str) :
    ∀ (st : Cache) (i : ℕ) (re : JsRegExp),
      lookupEntry st key = some (i, re) → st[i]? = some (key, re) := by
  intro st
  induction st with
  | nil => intro i re h; cases h
  | cons e rest ih =>
    intro i re h
    obtain ⟨k, r⟩ := e
    by_cases hk : k = key
    · simp only [lookupEntry, if_pos hk, Option.some.injEq, Prod.mk.injEq] at h
      obtain ⟨hi, hre⟩ := h
      subst hk
      subst hi
      subst hre
      simp
    · simp only [lookupEntry, if_neg hk] at h
      cases hx : lookupEntry rest key with
      | none =>
        rw [hx] at h
        cases h
      | some p =>
        obtain ⟨j, re'⟩ := p
        rw [hx] at h
        simp only [Option.map_some', Option.some.injEq, Prod.mk.injEq] at h
        obtain ⟨hi, hre⟩ := h
        subst hi
        simpa [hre] using ih j re' hx

theorem lookupEntry_append_self (key : Str) (re : JsRegExp) :
    ∀ st : Cache, lookupEntry st key = none →
      lookupEntry (st ++ [(key, re)]) key = some (st.length, re) := by
  intro st
  induction st with
  | nil => intro _; simp [lookupEntry]
  | cons e rest ih =>
    intro h
    obtain ⟨k, r⟩ := e
    by_cases hk : k = key
    · simp only [lookupEntry, if_pos hk] at h
      cases h
    · simp only [lookupEntry, if_neg hk] at h
      have hr : lookupEntry rest key = none := by
        cases hx : lookupEntry rest key with
        | none => rfl
        | some p => rw [hx] at h; cases h
      simp only [List.cons_append, lookupEntry, if_neg hk, List.append_eq, ih hr,
        Option.map_some', List.length_cons]

/-- The entry at the index returned by `get` carries the requested pattern
string as its key. -/
theorem get_entry_key (st : Cache) (t pre suf : Str) :
    ((RegexpCache.get st t pre suf).2.2)[(RegexpCache.get st t pre suf).1]? =
      some (regexpKey t pre suf, (RegexpCache.get st t pre suf).2.1) := by
  unfold RegexpCache.get
  cases hl : lookupEntry st (regexpKey t pre suf) with
  | some p =>
    obtain ⟨i, re⟩ := p
    simp only [hl]
    exact lookupEntry_spec _ st i re hl
  | none =>
    simp only [hl]
    rw [List.getElem?_append_right le_rfl]
    simp

/-- `get` only ever appends to the cache. -/
theorem get_cache_extends (st : Cache) (t pre suf : Str) :
    ∃ d, (RegexpCache.get st t pre suf).2.2 = st ++ d := by
  unfold RegexpCache.get
  cases hl : lookupEntry st (regexpKey t pre suf) with
  | some p =>
    obtain ⟨i, re⟩ := p
    simp only [hl]
    exact ⟨[], by simp⟩
  | none =>
    simp only [hl]
    exact ⟨[(regexpKey t pre suf, compileRegexp t pre suf)], rfl⟩

/-- Wrapping in the parentheses `(`/`)` always changes the pattern string. -/
theorem regexpKey_paren_ne (x : Str) :
    regexpKey x ['('] [')'] ≠ regexpKey x [] [] := by
  intro h
  have hlen := congrArg List.length h
  simp [regexpKey] at hlen
  omega

/-- Claim C7: `get` with identical `(term, prefix, suffix)` arguments returns
the identical cached pattern instance (same store position, same value), while
`get(x, "(", ")")` and `get(x)` return different instances. -/
theorem regexpCache_identity (st : Cache) (t pre suf x : Str) :
    ((RegexpCache.get st t pre suf).1 =
        (RegexpCache.get (RegexpCache.get st t pre suf).2.2 t pre suf).1 ∧
      (RegexpCache.get st t pre suf).2.1 =
        (RegexpCache.get (RegexpCache.get st t pre suf).2.2 t pre suf).2.1) ∧
    (RegexpCache.get st x ['('] [')']).1 ≠
      (RegexpCache.get (RegexpCache.get st x ['('] [')']).2.2 x [] []).1 := by
  constructor
  · unfold RegexpCache.get
    cases hl : lookupEntry st (regexpKey t pre suf) with
    | some p =>
      obtain ⟨i, re⟩ := p
      simp [hl]
    | none =>
      simp only [hl]
      rw [lookupEntry_append_self _ _ st hl]
      exact ⟨rfl, rfl⟩
  · intro heq
    have e1 := get_entry_key st x ['('] [')']
    have e2 := get_entry_key (RegexpCache.get st x ['('] [')']).2.2 x [] []
    obtain ⟨d, hd⟩ := get_cache_extends (RegexpCache.get st x ['('] [')']).2.2 x [] []
    have hlt : (RegexpCache.get st x ['('] [')']).1 <
        ((RegexpCache.get st x ['('] [')']).2.2).length := by
      obtain ⟨h, -⟩ := List.getElem?_eq_some.mp e1
      exact h
    rw [← heq, hd, List.getElem?_append, if_pos hlt, e1] at e2
    simp only [Option.some.injEq, Prod.mk.injEq] at e2
    exact regexpKey_paren_ne x e2.1

/-- Claim C6: the regexp `get` produces (on a fresh key) is case-insensitive
exactly when the raw term contains no uppercase letter; the decision reads the
raw term, not the final pattern string.  Consequently `matches(["Mar"],
"Mario")` holds and `matches(["Mar"], "mario")` does not. -/
theorem regexpCache_smartcase (st : Cache) (t pre suf : Str)
    (hfresh : lookupEntry st (regexpKey t pre suf) = none) :
    (RegexpCache.get st t pre suf).2.1.ignoreCase = !hasUpperCase t ∧
    matchesTerms ["Mar".toList] ["Mario".toList] = true ∧
    matchesTerms ["Mar".toList] ["mario".toList] = false := by
  refine ⟨?_, by decide, by decide⟩
  unfold RegexpCache.get
  simp only [hfresh]
  rfl

/-- Witness for C6: a fresh `get` of the term `"Mar"` (which contains an
uppercase letter) on the empty cache compiles a case-sensitive regexp. -/
theorem regexpCache_smartcase_witness :
    lookupEntry [] (regexpKey "Mar".toList [] []) = none ∧
    (RegexpCache.get [] "Mar".toList [] []).2.1.ignoreCase = !hasUpperCase "Mar".toList :=
  ⟨by decide, (regexpCache_smartcase [] "Mar".toList [] [] (by decide)).1⟩

/-- Claim C10: the cache key is the raw concatenation
`prefix ++ escaped(term) ++ suffix`, so distinct argument triples can collide:
`get("a", "b")` and `get("ba")` share one key, and `get("a", "B")` followed by
`get("Ba")` returns the very same instance, whose case-insensitivity was fixed
by the first term `"a"` even though `"Ba"` contains an uppercase letter and
would demand case-sensitivity. -/
theorem regexpCache_key_collision :
    ((['a'], ['b'], ([] : Str)) ≠ (['b', 'a'], ([] : Str), ([] : Str))) ∧
    regexpKey ['a'] ['b'] [] = regexpKey ['b', 'a'] [] [] ∧
    (RegexpCache.get (RegexpCache.get [] ['a'] ['b'] []).2.2 ['b', 'a'] [] []).1 =
      (RegexpCache.get [] ['a'] ['b'] []).1 ∧
    regexpKey ['a'] ['B'] [] = regexpKey ['B', 'a'] [] [] ∧
    (RegexpCache.get (RegexpCache.get [] ['a'] ['B'] []).2.2 ['B', 'a'] [] []).1 =
      (RegexpCache.get [] ['a'] ['B'] []).1 ∧
    (RegexpCache.get (RegexpCache.get [] ['a'] ['B'] []).2.2 ['B', 'a'] [] []).2.1.ignoreCase
      = true ∧
    hasUpperCase ['B', 'a'] = true := by
  decide

/-! ### `normalizeDifference` (claim C8) -/

/-- Claim C8 counterexample: with `count = 0` and `length = 0` the source does
divide by zero — `(max(0,0) - |0-0|) / max(0,0)` is `0 / 0`, i.e. NaN, not the
value `1` the spec postulates. -/
theorem normalizeDifference_zero_zero_nan : normalizeDifference 0 0 = none := by
  norm_num [normalizeDifference, jsDiv]

/-- Claim C8 as amended: for non-negative integer inputs not both zero,
`normalizeDifference` is a finite number in `[0, 1]`, and it is `0` whenever
the length is `0` (and the count is not). -/
theorem normalizeDifference_total_of_ne_zero (a b : ℕ) (h : ¬(a = 0 ∧ b = 0)) :
    ∃ q : ℚ, normalizeDifference (a : ℚ) (b : ℚ) = some q ∧
      0 ≤ q ∧ q ≤ 1 ∧ (b = 0 → q = 0) := by
  have ha : (0 : ℚ) ≤ (a : ℚ) := by positivity
  have hb : (0 : ℚ) ≤ (b : ℚ) := by positivity
  have hm : (0 : ℚ) < max (a : ℚ) (b : ℚ) := by
    rcases Nat.eq_zero_or_pos a with ha0 | hpos
    · have hb' : 0 < b := by omega
      exact lt_max_of_lt_right (by exact_mod_cast hb')
    · exact lt_max_of_lt_left (by exact_mod_cast hpos)
  have habs : |(a : ℚ) - (b : ℚ)| ≤ max (a : ℚ) (b : ℚ) := by
    rw [abs_sub_le_iff]
    constructor
    · calc (a : ℚ) - b ≤ (a : ℚ) := by linarith
        _ ≤ max (a : ℚ) b := le_max_left _ _
    · calc (b : ℚ) - a ≤ (b : ℚ) := by linarith
        _ ≤ max (a : ℚ) b := le_max_right _ _
  refine ⟨(max (a : ℚ) (b : ℚ) - |(a : ℚ) - (b : ℚ)|) / max (a : ℚ) (b : ℚ),
    ?_, ?_, ?_, ?_⟩
  · simp only [normalizeDifference, jsDiv, if_neg (ne_of_gt hm)]
  · apply div_nonneg _ (le_of_lt hm)
    linarith
  · rw [div_le_one hm]
    have := abs_nonneg ((a : ℚ) - (b : ℚ))
    linarith
  · intro hb0
    subst hb0
    have h1 : max (a : ℚ) ((0 : ℕ) : ℚ) = (a : ℚ) := by
      simp [max_eq_left ha]
    have h2 : |(a : ℚ) - ((0 : ℕ) : ℚ)| = (a : ℚ) := by
      simp [abs_of_nonneg ha]
    rw [h1, h2, sub_self, zero_div]

/-- Witness for the amended C8 at `count = 1`, `length = 0` (factor `0`). -/
theorem normalizeDifference_total_witness :
    ¬((1 : ℕ) = 0 ∧ (0 : ℕ) = 0) ∧
    ∃ q : ℚ, normalizeDifference ((1 : ℕ) : ℚ) ((0 : ℕ) : ℚ) = some q ∧
      0 ≤ q ∧ q ≤ 1 ∧ ((0 : ℕ) = 0 → q = 0) :=
  ⟨by omega, normalizeDifference_total_of_ne_zero 1 0 (by omega)⟩

/-! ### `recencyScore` (claim C4) -/

/-- Claim C4 counterexample: the intermediate ratio is only clamped from
below, so a timestamp one month in the future gives ratio `2` and score
`16/3`, far above `recencyCalibrator = 2/3`. -/
theorem recencyScore_future_exceeds_calibrator :
    recencyScore 0 oneMonthAgo = 16 / 3 ∧
      ¬ recencyScore 0 oneMonthAgo ≤ matchWeights.recencyCalibrator := by
  have h : recencyScore 0 oneMonthAgo = 16 / 3 := by
    rw [recencyScore]
    rw [show (0 : ℚ) - oneMonthAgo = -oneMonthAgo by ring]
    rw [show oneMonthAgo - -oneMonthAgo = 2 * oneMonthAgo by ring]
    rw [max_eq_right (by norm_num [oneMonthAgo])]
    rw [show 2 * oneMonthAgo / oneMonthAgo = 2 by
      rw [mul_div_assoc, div_self (by norm_num [oneMonthAgo]), mul_one]]
    norm_num [matchWeights]
  refine ⟨h, ?_⟩
  rw [h]
  norm_num [matchWeights]

/-- Claim C4 as amended: `recencyScore` computes
`(max(0, window - age) / window)^3 × recencyCalibrator`; for timestamps not in
the future it lies in `[0, recencyCalibrator]`; it equals `recencyCalibrator`
at age `0` and `0` at every age of at least one month; and it is monotonically
non-increasing as the age increases (equivalently, non-decreasing in the
timestamp), with no hypothesis on the timestamps. -/
theorem recencyScore_contract (now last : ℚ) :
    (recencyScore now last =
      (max 0 (oneMonthAgo - (now - last)) / oneMonthAgo) ^ 3 *
        matchWeights.recencyCalibrator) ∧
    (last ≤ now → 0 ≤ recencyScore now last ∧
      recencyScore now last ≤ matchWeights.recencyCalibrator) ∧
    recencyScore now now = matchWeights.recencyCalibrator ∧
    (oneMonthAgo ≤ now - last → recencyScore now last = 0) ∧
    (∀ t1 t2 : ℚ, t1 ≤ t2 → recencyScore now t1 ≤ recencyScore now t2) := by
  have hw : (0 : ℚ) < oneMonthAgo := by norm_num [oneMonthAgo]
  have hc : (0 : ℚ) ≤ matchWeights.recencyCalibrator := by norm_num [matchWeights]
  refine ⟨by rw [recencyScore]; ring, ?_, ?_, ?_, ?_⟩
  · intro hle
    set d := max 0 (oneMonthAgo - (now - last)) / oneMonthAgo with hd
    have hd0 : 0 ≤ d := by
      apply div_nonneg (le_max_left _ _) (le_of_lt hw)
    have hd1 : d ≤ 1 := by
      rw [hd, div_le_one hw]
      apply max_le (le_of_lt hw)
      have : 0 ≤ now - last := by linarith
      linarith
    constructor
    · rw [recencyScore]
      positivity
    · rw [recencyScore]
      have hdd : d * d ≤ 1 := by nlinarith
      have hddd : d * d * d ≤ 1 := by nlinarith
      calc d * d * d * matchWeights.recencyCalibrator
          ≤ 1 * matchWeights.recencyCalibrator :=
            mul_le_mul_of_nonneg_right hddd hc
        _ = matchWeights.recencyCalibrator := one_mul _
  · rw [recencyScore, sub_self, sub_zero, max_eq_right (le_of_lt hw),
      div_self (ne_of_gt hw)]
    ring
  · intro hold
    rw [recencyScore, max_eq_left (by linarith), zero_div]
    ring
  · intro t1 t2 hle
    rw [recencyScore, recencyScore]
    have h1 : 0 ≤ max 0 (oneMonthAgo - (now - t1)) / oneMonthAgo :=
      div_nonneg (le_max_left _ _) (le_of_lt hw)
    have h2 : max 0 (oneMonthAgo - (now - t1)) / oneMonthAgo ≤
        max 0 (oneMonthAgo - (now - t2)) / oneMonthAgo := by
      apply (div_le_div_iff_of_pos_right hw).mpr
      exact max_le_max le_rfl (by linarith)
    set d1 := max 0 (oneMonthAgo - (now - t1)) / oneMonthAgo
    set d2 := max 0 (oneMonthAgo - (now - t2)) / oneMonthAgo
    have h12 : 0 ≤ d2 := le_trans h1 h2
    have h21 : d1 * d1 ≤ d2 * d2 := mul_le_mul h2 h2 h1 h12
    have h3 : d1 * d1 * d1 ≤ d2 * d2 * d2 :=
      mul_le_mul h21 h2 h1 (mul_nonneg h12 h12)
    exact mul_le_mul_of_nonneg_right h3 hc

/-- Witness for the amended C4 at `now = oneMonthAgo`, `last = 0` (age exactly
one month), plus monotonicity at the concrete pair `t1 = 0 ≤ t2 = 1`. -/
theorem recencyScore_contract_witness :
    (0 ≤ recencyScore oneMonthAgo 0 ∧
      recencyScore oneMonthAgo 0 ≤ matchWeights.recencyCalibrator) ∧
    recencyScore oneMonthAgo 0 = 0 ∧
    recencyScore oneMonthAgo 0 ≤ recencyScore oneMonthAgo 1 :=
  ⟨(recencyScore_contract oneMonthAgo 0).2.1 (by norm_num [oneMonthAgo]),
    (recencyScore_contract oneMonthAgo 0).2.2.2.1 (by norm_num [oneMonthAgo]),
    (recencyScore_contract oneMonthAgo 0).2.2.2.2 0 1 (by norm_num)⟩

/-! ### `wordRelevancy` (claims C2 and C3) -/

/-- A `ℚ`-level description of `normalizeDifference` on non-negative inputs
that are not both zero: a finite factor in `[0, 1]`, equal to `0` as soon as
one input is `0`. -/
theorem normalizeDifference_spec (a b : ℚ) (ha : 0 ≤ a) (hb : 0 ≤ b)
    (h : ¬(a = 0 ∧ b = 0)) :
    ∃ q : ℚ, normalizeDifference a b = some q ∧ 0 ≤ q ∧ q ≤ 1 ∧
      (a = 0 → q = 0) ∧ (b = 0 → q = 0) := by
  have hm : 0 < max a b := by
    rcases eq_or_lt_of_le ha with ha0 | hapos
    · have hbpos : 0 < b := by
        rcases eq_or_lt_of_le hb with hb0 | hbpos
        · exact absurd ⟨ha0.symm, hb0.symm⟩ h
        · exact hbpos
      exact lt_max_of_lt_right hbpos
    · exact lt_max_of_lt_left hapos
  have habs : |a - b| ≤ max a b := by
    rw [abs_sub_le_iff]
    exact ⟨by calc a - b ≤ a := by linarith
      _ ≤ max a b := le_max_left _ _,
      by calc b - a ≤ b := by linarith
        _ ≤ max a b := le_max_right _ _⟩
  refine ⟨(max a b - |a - b|) / max a b, ?_, ?_, ?_, ?_, ?_⟩
  · simp only [normalizeDifference, jsDiv, if_neg (ne_of_gt hm)]
  · apply div_nonneg _ (le_of_lt hm)
    linarith
  · rw [div_le_one hm]
    have := abs_nonneg (a - b)
    linarith
  · intro ha0
    subst ha0
    have habs0 : |(0 : ℚ) - b| = b := by
      rw [abs_of_nonpos (by linarith)]
      ring
    rw [max_eq_right hb, habs0, sub_self, zero_div]
  · intro hb0
    subst hb0
    have habs0 : |a - (0 : ℚ)| = a := by
      rw [abs_of_nonneg (by linarith)]
      ring
    rw [max_eq_left ha, habs0, sub_self, zero_div]

theorem foldl_score_eq (terms : List Str) (field : Str) :
    terms.foldl (fun a term => a + (scoreTerm term field).1) 0 =
      (terms.map fun term => (scoreTerm term field).1).sum := by
  have key : ∀ (l : List Str) (init : ℤ),
      l.foldl (fun a term => a + (scoreTerm term field).1) init =
        init + (l.map fun term => (scoreTerm term field).1).sum := by
    intro l
    induction l with
    | nil => simp
    | cons x xs ih =>
      intro init
      simp only [List.foldl_cons, ih, List.map_cons, List.sum_cons]
      ring
  simpa using key terms 0

theorem foldl_count_eq (terms : List Str) (field : Str) :
    terms.foldl (fun a term => a + (scoreTerm term field).2) 0 =
      (terms.map fun term => (scoreTerm term field).2).sum := by
  have key : ∀ (l : List Str) (init : ℤ),
      l.foldl (fun a term => a + (scoreTerm term field).2) init =
        init + (l.map fun term => (scoreTerm term field).2).sum := by
    intro l
    induction l with
    | nil => simp
    | cons x xs ih =>
      intro init
      simp only [List.foldl_cons, ih, List.map_cons, List.sum_cons]
      ring
  simpa using key terms 0

theorem sum_scores_bounds (terms : List Str) (field : Str) :
    0 ≤ (terms.map fun term => (scoreTerm term field).1).sum ∧
      (terms.map fun term => (scoreTerm term field).1).sum ≤ 3 * terms.length := by
  induction terms with
  | nil => simp
  | cons x xs ih =>
    obtain ⟨h0, h3⟩ := scoreTerm_score_bounds x field
    have h3' : (scoreTerm x field).1 ≤ 3 := by
      simpa [matchWeights] using h3
    simp only [List.map_cons, List.sum_cons, List.length_cons]
    constructor
    · linarith [ih.1]
    · push_cast
      have := ih.2
      push_cast at this
      linarith

theorem sum_counts_nonneg (terms : List Str) (field : Str) :
    0 ≤ (terms.map fun term => (scoreTerm term field).2).sum := by
  induction terms with
  | nil => simp
  | cons x xs ih =>
    have h0 := (scoreTerm_count_bounds x field).1
    simp only [List.map_cons, List.sum_cons]
    linarith

theorem sum_scores_zero (terms : List Str) (field : Str)
    (hnone : ∀ t ∈ terms, testAnywhere (!hasUpperCase t) t field = false) :
    (terms.map fun term => (scoreTerm term field).1).sum = 0 ∧
      (terms.map fun term => (scoreTerm term field).2).sum = 0 := by
  induction terms with
  | nil => simp
  | cons x xs ih =>
    have hx := scoreTerm_of_no_match x field (hnone x (by simp))
    have hxs := ih fun t ht => hnone t (by simp [ht])
    simp only [List.map_cons, List.sum_cons, hx, hxs.1, hxs.2]
    norm_num

/-- The per-field normalized score is a finite number in `[0, 1]` whenever
there is at least one term and the field is non-empty. -/
theorem normalizedFieldScore_spec (terms : List Str) (field : Str)
    (hterms : terms ≠ []) (hfield : field ≠ []) :
    ∃ q : ℚ, normalizedFieldScore terms field = some q ∧ 0 ≤ q ∧ q ≤ 1 ∧
      ((∀ t ∈ terms, testAnywhere (!hasUpperCase t) t field = false) → q = 0) := by
  have hlen : 0 < terms.length := List.length_pos.mpr hterms
  have hflen : 0 < field.length := List.length_pos.mpr hfield
  obtain ⟨hS0, hS3⟩ := sum_scores_bounds terms field
  have hC0 := sum_counts_nonneg terms field
  have hM : ((matchWeights.maximumScore * (terms.length : ℤ) : ℤ) : ℚ) =
      3 * (terms.length : ℚ) := by
    norm_num [matchWeights]
  have hMpos : (0 : ℚ) < 3 * (terms.length : ℚ) := by positivity
  obtain ⟨nd, hnd, hnd0, hnd1, hndA, -⟩ :=
    normalizeDifference_spec
      (((terms.map fun term => (scoreTerm term field).2).sum : ℤ) : ℚ)
      ((field.length : ℕ) : ℚ)
      (by exact_mod_cast hC0) (by positivity)
      (by
        rintro ⟨-, hf⟩
        have : (field.length : ℚ) ≠ 0 := by positivity
        exact this hf)
  refine ⟨(((terms.map fun term => (scoreTerm term field).1).sum : ℚ) /
      (3 * (terms.length : ℚ))) * nd, ?_, ?_, ?_, ?_⟩
  · simp only [normalizedFieldScore, foldl_score_eq, foldl_count_eq, hM, hnd,
      jsDiv, jsMul, if_neg (ne_of_gt hMpos)]
  · apply mul_nonneg _ hnd0
    apply div_nonneg _ (le_of_lt hMpos)
    exact_mod_cast hS0
  · apply mul_le_one₀ _ hnd0 hnd1
    rw [div_le_one hMpos]
    exact_mod_cast hS3
  · intro hnone
    obtain ⟨hs, hc⟩ := sum_scores_zero terms field hnone
    rw [hs]
    norm_num

/-- Predicate: no query term occurs in the URL, nor in the title when one was
supplied. -/
def noTermOccurs (terms : List Str) (url : Str) (title : Option Str) : Prop :=
  ∀ t ∈ terms, testAnywhere (!hasUpperCase t) t url = false ∧
    ∀ ti, title = some ti → testAnywhere (!hasUpperCase t) t ti = false

/-- Full description of the two post-adjustment scores of `wordRelevancy` for
at least one term and a non-empty URL: both are finite numbers in `[0, 1]`,
the URL score is the maximum of its per-field value and the title score, and
with no (non-empty) title the title score collapses to the URL's per-field
value. -/
theorem wordRelevancyParts_spec (terms : List Str) (url : Str) (title : Option Str)
    (hterms : terms ≠ []) (hurl : url ≠ []) :
    ∃ u0 u t : ℚ, normalizedFieldScore terms url = some u0 ∧
      wordRelevancyParts terms url title = (some u, some t) ∧
      u = max u0 t ∧
      0 ≤ u ∧ u ≤ 1 ∧ 0 ≤ t ∧ t ≤ 1 ∧ t ≤ u ∧
      (strTruthy title = false → t = u0) ∧
      (noTermOccurs terms url title → u = 0 ∧ t = 0) := by
  obtain ⟨u0, hu0, hu00, hu01, hu0z⟩ := normalizedFieldScore_spec terms url hterms hurl
  by_cases ht : strTruthy title = true
  · obtain ⟨ti, rfl, htine⟩ : ∃ ti, title = some ti ∧ ti ≠ [] := by
      cases title with
      | none => simp [strTruthy] at ht
      | some s => exact ⟨s, rfl, by simpa [strTruthy] using ht⟩
    obtain ⟨tv, htv, htv0, htv1, htvz⟩ := normalizedFieldScore_spec terms ti hterms htine
    have hparts : wordRelevancyParts terms (url) (some ti) =
        (if jsLt (some u0) (some tv) then some tv else some u0, some tv) := by
      simp only [wordRelevancyParts, ht, if_pos, Option.getD_some, hu0, htv]
    by_cases hlt : u0 < tv
    · refine ⟨u0, tv, tv, hu0, ?_, ?_, htv0, htv1, htv0, htv1, le_rfl, ?_, ?_⟩
      · rw [hparts, if_pos (by simp [jsLt, hlt])]
      · rw [max_eq_right (le_of_lt hlt)]
      · intro hfalse; rw [ht] at hfalse; cases hfalse
      · intro hno
        have hz0 : u0 = 0 := hu0z fun t htm => (hno t htm).1
        have hzt : tv = 0 := htvz fun t htm => (hno t htm).2 ti rfl
        exact ⟨hzt, hzt⟩
    · refine ⟨u0, u0, tv, hu0, ?_, ?_, hu00, hu01, htv0, htv1, by linarith, ?_, ?_⟩
      · rw [hparts, if_neg (by simp [jsLt, hlt])]
      · rw [max_eq_left (by linarith)]
      · intro hfalse; rw [ht] at hfalse; cases hfalse
      · intro hno
        have hz0 : u0 = 0 := hu0z fun t htm => (hno t htm).1
        have hzt : tv = 0 := htvz fun t htm => (hno t htm).2 ti rfl
        exact ⟨hz0, hzt⟩
  · have ht' : strTruthy title = false := by
      cases hx : strTruthy title with
      | false => rfl
      | true => exact absurd hx ht
    have hparts : wordRelevancyParts terms url title =
        (if jsLt (some u0) (some u0) then some u0 else some u0, some u0) := by
      simp only [wordRelevancyParts, ht', Bool.false_eq_true, if_false, hu0]
    refine ⟨u0, u0, u0, hu0, ?_, (max_self u0).symm, hu00, hu01, hu00, hu01, le_rfl,
      fun _ => rfl, ?_⟩
    · rw [hparts, if_neg (by simp [jsLt])]
    · intro hno
      have hz0 : u0 = 0 := hu0z fun t htm => (hno t htm).1
      exact ⟨hz0, hz0⟩

/-- Claim C2 counterexample: with zero query terms `maximumPossibleScore` is
`3 * 0 = 0` and the source computes `0 / 0`; the result is NaN, not `0`. -/
theorem wordRelevancy_zero_terms_nan : wordRelevancy [] ['a'] none = none := by
  have h1 : normalizedFieldScore [] ['a'] = none := by
    norm_num [normalizedFieldScore, jsDiv, jsMul, matchWeights]
  simp [wordRelevancy, wordRelevancyParts, strTruthy, h1, jsLt, jsAdd, jsDiv]

/-- Claim C2 as amended: for a non-empty list of query terms and a non-empty
URL, `wordRelevancy` returns a finite number in `[0, 1]`, and returns exactly
`0` whenever no term occurs in the URL nor in the title.  (With zero terms, or
with an empty URL, the source instead produces NaN.) -/
theorem wordRelevancy_contract (terms : List Str) (url : Str) (title : Option Str)
    (hterms : terms ≠ []) (hurl : url ≠ []) :
    ∃ q : ℚ, wordRelevancy terms url title = some q ∧ 0 ≤ q ∧ q ≤ 1 ∧
      (noTermOccurs terms url title → q = 0) := by
  obtain ⟨u0, u, t, hu0, hp, hmax, hu0', hu1, ht0, ht1, htu, hcol, hzero⟩ :=
    wordRelevancyParts_spec terms url title hterms hurl
  refine ⟨(u + t) / 2, ?_, by linarith, by linarith, ?_⟩
  · simp only [wordRelevancy, hp, jsAdd, jsDiv]
    norm_num
  · intro hno
    obtain ⟨hu, ht⟩ := hzero hno
    rw [hu, ht]
    norm_num

/-- Witness for the amended C2 at terms `["a"]`, URL `"a"`, no title. -/
theorem wordRelevancy_contract_witness :
    (["a".toList] ≠ ([] : List Str)) ∧ ("a".toList ≠ ([] : Str)) ∧
    ∃ q : ℚ, wordRelevancy ["a".toList] "a".toList none = some q ∧ 0 ≤ q ∧ q ≤ 1 ∧
      (noTermOccurs ["a".toList] "a".toList none → q = 0) :=
  ⟨by decide, by decide,
    wordRelevancy_contract ["a".toList] "a".toList none (by decide) (by decide)⟩

/-- Claim C3 counterexample: with the empty URL the URL score is NaN (it is
multiplied by `normalizeDifference(0, 0)`), the asymmetric floor does not fire
(every comparison against NaN is false), and the returned value is NaN — so
the result is not "at least titleScore" even though the post-adjustment title
score is the number `0`. -/
theorem wordRelevancy_empty_url_nan :
    wordRelevancyParts ["a".toList] [] (some "b".toList) = (none, some 0) ∧
    wordRelevancy ["a".toList] [] (some "b".toList) = none := by
  have hsu : scoreTerm "a".toList [] = (0, 0) := by decide
  have hst : scoreTerm "a".toList "b".toList = (0, 0) := by decide
  have h1 : normalizedFieldScore ["a".toList] [] = none := by
    simp only [normalizedFieldScore, List.foldl_cons, List.foldl_nil, hsu]
    norm_num [normalizeDifference, jsDiv, jsMul, matchWeights]
  have h2 : normalizedFieldScore ["a".toList] "b".toList = some 0 := by
    simp only [normalizedFieldScore, List.foldl_cons, List.foldl_nil, hst]
    norm_num [normalizeDifference, jsDiv, jsMul, matchWeights]
  have htt : strTruthy (some "b".toList) = true := by decide
  have hparts : wordRelevancyParts ["a".toList] [] (some "b".toList) = (none, some 0) := by
    simp only [wordRelevancyParts, htt, if_pos, Option.getD_some, h1, h2, jsLt]
    simp
  refine ⟨hparts, ?_⟩
  simp only [wordRelevancy, hparts]
  rfl

/-- Claim C3 as amended: for at least one query term and a non-empty URL the
post-normalization adjustments behave as claimed — with no (non-empty) title
the title score is set to the URL score; the URL score is raised to the title
score when smaller (it ends as their maximum); the returned value is exactly
the average of the two post-adjustment scores; and the result is at least the
title score.  (With an empty URL the scores are NaN and the floor/lower-bound
conjuncts fail.) -/
theorem wordRelevancy_title_floor_average (terms : List Str) (url : Str)
    (title : Option Str) (hterms : terms ≠ []) (hurl : url ≠ []) :
    ∃ u0 u t : ℚ, normalizedFieldScore terms url = some u0 ∧
      wordRelevancyParts terms url title = (some u, some t) ∧
      (strTruthy title = false → t = u0) ∧
      u = max u0 t ∧
      wordRelevancy terms url title = some ((u + t) / 2) ∧
      t ≤ (u + t) / 2 := by
  obtain ⟨u0, u, t, hu0, hp, hmax, hu0', hu1, ht0, ht1, htu, hcol, hzero⟩ :=
    wordRelevancyParts_spec terms url title hterms hurl
  refine ⟨u0, u, t, hu0, hp, hcol, hmax, ?_, by linarith⟩
  simp only [wordRelevancy, hp, jsAdd, jsDiv]
  norm_num

/-- Witness for the amended C3 at terms `["a"]`, URL `"a"`, title `"b"`. -/
theorem wordRelevancy_title_floor_average_witness :
    (["a".toList] ≠ ([] : List Str)) ∧ ("a".toList ≠ ([] : Str)) ∧
    ∃ u0 u t : ℚ, normalizedFieldScore ["a".toList] "a".toList = some u0 ∧
      wordRelevancyParts ["a".toList] "a".toList (some "b".toList) = (some u, some t) ∧
      (strTruthy (some "b".toList) = false → t = u0) ∧
      u = max u0 t ∧
      wordRelevancy ["a".toList] "a".toList (some "b".toList) = some ((u + t) / 2) ∧
      t ≤ (u + t) / 2 :=
  ⟨by decide, by decide,
    wordRelevancy_title_floor_average ["a".toList] "a".toList (some "b".toList)
      (by decide) (by decide)⟩

end Ranking
